import Mathlib

/-!
Verification of the module-dependency resolution engine of `vscode-requirejs`
(`src/extension.js`, final revision).  Strings are embedded as `List Char`;
JavaScript objects used as string-keyed maps are embedded as association
lists; the esprima syntax tree is embedded as the inductive `Node`.
-/

namespace Requirejs

/-- An esprima source location: `loc.start`/`loc.end` with 1-based lines. -/
structure Loc where
  startLine : Int
  startColumn : Int
  endLine : Int
  endColumn : Int
deriving DecidableEq

mutual

/-- The esprima AST nodes that the extension's code inspects.  Every node
carries its optional `loc` annotation.  `literal` covers string literals
(the only literal kind occurring in module-path positions). -/
inductive Node where
  | ident (name : List Char) (loc : Option Loc)
  | literal (value : List Char) (loc : Option Loc)
  | member (computed : Bool) (object : Node) (property : Node) (loc : Option Loc)
  | call (callee : Node) (arguments : NodeList) (loc : Option Loc)
  | newExpr (callee : Node) (arguments : NodeList) (loc : Option Loc)
  | varDecl (id : Node) (init : NodeOpt) (loc : Option Loc)
  | varDeclStmt (declarations : NodeList) (loc : Option Loc)
  | assign (left : Node) (right : Node) (loc : Option Loc)
  | arrayExpr (elements : NodeList) (loc : Option Loc)
  | functionExpr (params : NodeList) (body : NodeList) (loc : Option Loc)
  | exprStmt (expression : Node) (loc : Option Loc)
  | program (body : NodeList)
deriving DecidableEq

/-- A list of sibling AST nodes (child arrays of a node). -/
inductive NodeList where
  | nil
  | cons (head : Node) (tail : NodeList)
deriving DecidableEq

/-- An optional AST child (a node property that may be absent). -/
inductive NodeOpt where
  | none
  | some (node : Node)
deriving DecidableEq

end

/-- Converts a child array to a `List` for inspection. -/
def NodeList.toList : NodeList → List Node
  | .nil => []
  | .cons h t => h :: t.toList

/-- Builds a child array from a `List`. -/
def NodeList.ofList : List Node → NodeList
  | [] => .nil
  | h :: t => .cons h (NodeList.ofList t)

/-- Converts an optional child to an `Option`. -/
def NodeOpt.toOption : NodeOpt → Option Node
  | .none => Option.none
  | .some n => Option.some n

/-- `node.loc` (JavaScript property access; `undefined` becomes `none`). -/
def Node.loc : Node → Option Loc
  | .ident _ l => l
  | .literal _ l => l
  | .member _ _ _ l => l
  | .call _ _ l => l
  | .newExpr _ _ l => l
  | .varDecl _ _ l => l
  | .varDeclStmt _ l => l
  | .assign _ _ l => l
  | .arrayExpr _ l => l
  | .functionExpr _ _ l => l
  | .exprStmt _ l => l
  | .program _ => none

/-- `node.name` (defined only on `Identifier` nodes; `undefined` otherwise). -/
def Node.name : Node → Option (List Char)
  | .ident n _ => Option.some n
  | _ => Option.none

/-- `node.type === 'Identifier'`. -/
def Node.isIdentifierNode : Node → Bool
  | .ident _ _ => true
  | _ => false

/-- Lookup by key in a JavaScript-object-as-map (first match wins;
`insertA` keeps keys unique). -/
def lookupA {κ α : Type} [DecidableEq κ] : List (κ × α) → κ → Option α
  | [], _ => none
  | (k, v) :: rest, key => if k = key then some v else lookupA rest key

/-- `delete obj[key]`: removes every entry stored under `key`. -/
def eraseAllA {κ α : Type} [DecidableEq κ] : List (κ × α) → κ → List (κ × α)
  | [], _ => []
  | (k, v) :: rest, key =>
    if k = key then eraseAllA rest key else (k, v) :: eraseAllA rest key

/-- `obj[key] = value`: overwrites any previous entry for `key`. -/
def insertA {κ α : Type} [DecidableEq κ] (a : List (κ × α)) (k : κ) (v : α) :
    List (κ × α) :=
  (k, v) :: eraseAllA a k

/-- JavaScript falsiness of a possibly-undefined string value:
`undefined` and the empty string are falsy. -/
def jsFalsyStr : Option (List Char) → Bool
  | none => true
  | some s => s.isEmpty

mutual

/-- Modelled from the spec: the tree walker `traverse` lives in `./lib/parse`,
which is not included under `src/`.  Section 9 of the specification describes
it as a depth-first, pre-order walk with an early-exit callback: the visitor
receives each node together with its parent, and returning `false` stops the
entire walk.  The visitor threads an explicit state `σ` here because the
JavaScript visitors mutate captured local variables. -/
def traverseNode {σ : Type} (visit : Node → Option Node → σ → σ × Bool)
    (parent : Option Node) (n : Node) (s : σ) : σ × Bool :=
  match visit n parent s with
  | (s, false) => (s, false)
  | (s, true) =>
    match n with
    | .ident _ _ => (s, true)
    | .literal _ _ => (s, true)
    | .member _ o p _ =>
      match traverseNode visit (some n) o s with
      | (s, false) => (s, false)
      | (s, true) => traverseNode visit (some n) p s
    | .call c args _ =>
      match traverseNode visit (some n) c s with
      | (s, false) => (s, false)
      | (s, true) => traverseNL visit (some n) args s
    | .newExpr c args _ =>
      match traverseNode visit (some n) c s with
      | (s, false) => (s, false)
      | (s, true) => traverseNL visit (some n) args s
    | .varDecl i init _ =>
      match traverseNode visit (some n) i s with
      | (s, false) => (s, false)
      | (s, true) => traverseNO visit (some n) init s
    | .varDeclStmt decls _ => traverseNL visit (some n) decls s
    | .assign l r _ =>
      match traverseNode visit (some n) l s with
      | (s, false) => (s, false)
      | (s, true) => traverseNode visit (some n) r s
    | .arrayExpr elems _ => traverseNL visit (some n) elems s
    | .functionExpr params body _ =>
      match traverseNL visit (some n) params s with
      | (s, false) => (s, false)
      | (s, true) => traverseNL visit (some n) body s
    | .exprStmt e _ => traverseNode visit (some n) e s
    | .program body => traverseNL visit (some n) body s

/-- The child-array part of the depth-first walk: visits the nodes in
order, stopping as soon as a visit reports `false`. -/
def traverseNL {σ : Type} (visit : Node → Option Node → σ → σ × Bool)
    (parent : Option Node) (ns : NodeList) (s : σ) : σ × Bool :=
  match ns with
  | .nil => (s, true)
  | .cons n rest =>
    match traverseNode visit parent n s with
    | (s, false) => (s, false)
    | (s, true) => traverseNL visit parent rest s

/-- The optional-child part of the depth-first walk. -/
def traverseNO {σ : Type} (visit : Node → Option Node → σ → σ × Bool)
    (parent : Option Node) (n : NodeOpt) (s : σ) : σ × Bool :=
  match n with
  | .none => (s, true)
  | .some node => traverseNode visit parent node s

end

/-- `modulePath.indexOf(c)`: the index of the first occurrence of the
character, or `-1` when it does not occur (as in JavaScript). -/
def indexOfChar (c : Char) : List Char → Int
  | [] => -1
  | x :: rest =>
    if x = c then 0
    else
      let r := indexOfChar c rest
      if r < 0 then -1 else r + 1

/-- Splits a string at every occurrence of the separator character. -/
def splitOnChar (c : Char) : List Char → List (List Char)
  | [] => [[]]
  | x :: rest =>
    let r := splitOnChar c rest
    if x = c then [] :: r
    else
      match r with
      | s :: ss => (x :: s) :: ss
      | [] => [[x]]

/-- Joins path segments with `/` separators. -/
def joinSegs : List (List Char) → List Char
  | [] => []
  | [s] => s
  | s :: rest => s ++ '/' :: joinSegs rest

/-- One step of POSIX path normalization, over a reversed stack of output
segments: `.` is dropped, `..` pops a segment (or is kept when there is
nothing to pop in a relative path). -/
def normStep (isAbs : Bool) (stack : List (List Char)) (seg : List Char) :
    List (List Char) :=
  if seg = ['.'] then stack
  else if seg = ['.', '.'] then
    match stack with
    | [] => if isAbs then [] else [seg]
    | top :: rest => if top = ['.', '.'] then seg :: stack else rest
  else seg :: stack

/-- Node's `path.normalize` for POSIX paths: resolves `.` and `..`
segments, collapses repeated separators, preserves a leading `/` and a
trailing `/`. -/
def pathNormalize (s : List Char) : List Char :=
  if s = [] then ['.']
  else
    let isAbs := s.head? = some '/'
    let segs := (splitOnChar '/' s).filter (fun seg => seg ≠ [])
    let out := (segs.foldl (normStep isAbs) []).reverse
    let body := joinSegs out
    let body := if s.getLast? = some '/' ∧ body ≠ [] then body ++ ['/'] else body
    if isAbs then '/' :: body
    else if body = [] then ['.']
    else body

/-- Node's `path.dirname` for POSIX paths: strips trailing separators and
the last path component. -/
def pathDirname (s : List Char) : List Char :=
  let rev := s.reverse
  let rev := rev.dropWhile (fun ch => ch = '/')
  let rev := rev.dropWhile (fun ch => ch ≠ '/')
  let rev := rev.dropWhile (fun ch => ch = '/')
  if rev = [] then
    if s.head? = some '/' then ['/'] else ['.']
  else rev.reverse

/-- Node's `path.join` of two parts: concatenates with a separator and
normalizes. -/
def pathJoin (a b : List Char) : List Char :=
  if a = [] ∧ b = [] then ['.']
  else if a = [] then pathNormalize b
  else if b = [] then pathNormalize a
  else pathNormalize (a ++ '/' :: b)

/-- The workspace configuration the extension reads
(`requireModuleSupport.*`): the per-plugin extension map, the module root
(`baseUrl` handed to requirejs) and the navigate-to-file-only flag. -/
structure Config where
  pluginExtensions : Option (List (List Char × List Char))
  baseUrl : List Char
  onlyNavigateToFile : Bool

/-- `requirejs.toUrl`, the external module loader's path resolver: a path
that is already absolute is used as is, any other path is resolved against
the configured module root (`baseUrl`).  The loader itself is a third-party
dependency; this captures the behavior the source relies on (spec 4.4:
"resolve it against the project's configured module root"). -/
def toUrl (baseUrl filePath : List Char) : List Char :=
  if filePath.head? = some '/' then filePath else baseUrl ++ '/' :: filePath

/-- The computation of `filePath` inside `resolveModulePath`
(src/extension.js lines 272-291), before relative-path resolution: the
plugin branch for `plugin!target` module paths, the `.js` suffix for plain
ones. -/
def rawFilePath (pluginExtensions : Option (List (List Char × List Char)))
    (modulePath : List Char) : List Char :=
  let pluginSeparator := indexOfChar '!' modulePath
  if 0 < pluginSeparator then
    let pluginName := modulePath.take pluginSeparator.toNat
    let filePath := modulePath.drop (pluginSeparator.toNat + 1)
    match pluginExtensions with
    | some exts =>
      match lookupA exts pluginName with
      | some pluginExtension =>
        if pluginExtension ≠ [] ∧ ¬ (List.isSuffixOf pluginExtension filePath) then
          filePath ++ pluginExtension
        else filePath
      | none => filePath
    | none => filePath
  else modulePath ++ ['.', 'j', 's']

/-- `resolveModulePath` (src/extension.js lines 269-299): computes an
absolute file path for a RequireJS module path. -/
def resolveModulePath (config : Config) (modulePath currentFilePath : List Char) :
    List Char :=
  let filePath := rawFilePath config.pluginExtensions modulePath
  let filePath :=
    if List.isPrefixOf ['.', '/'] filePath then
      pathJoin (pathDirname currentFilePath) filePath
    else filePath
  pathNormalize (toUrl config.baseUrl filePath)

/-- The part of a `vscode.TextDocument` the extension reads: the file
name, the edit revision (`version`), the language identifier and the text
content. -/
structure TextDocument where
  fileName : List Char
  version : Nat
  languageId : List Char
  text : List Char
deriving DecidableEq

/-- An LRU cache of per-file versioned entries, embedded as an association
list from file name to `(object, version)`.  The LRU recency bookkeeping
and the capacity bound do not affect the behavior verified here and are
not modelled. -/
abbrev Cache (α : Type) : Type := List (List Char × (α × Nat))

/-- `getCachedVersionedObject` (src/extension.js lines 308-322): returns
the cached object only when it was stored for the document's current
version; a stale entry is deleted.  The JavaScript mutates the cache, so
the possibly-updated cache is returned alongside the result. -/
def getCachedVersionedObject {α : Type} (cache : Cache α)
    (document : TextDocument) : Option α × Cache α :=
  let fileName := document.fileName
  match lookupA cache fileName with
  | some cacheEntry =>
    if cacheEntry.2 ≠ document.version then (none, eraseAllA cache fileName)
    else (some cacheEntry.1, cache)
  | none => (none, cache)

/-- `setCachedVersionedObject` (src/extension.js lines 331-336): stores an
object under the document's file name, tagged with its current version. -/
def setCachedVersionedObject {α : Type} (cache : Cache α)
    (document : TextDocument) (object : α) : Cache α :=
  insertA cache document.fileName (object, document.version)

/-- A name/path dependency table, the result of the `reduce` in
`getModuleDependencies`: JavaScript `result[param] = dependencies[index]`
may store `undefined`, so values are optional. -/
abbrev DepTable : Type := List (List Char × Option (List Char))

/-- The two caches owned by a `ReferenceProvider` instance. -/
structure Caches where
  moduleDependencyCache : Cache DepTable
  parsedModuleCache : Cache Node
deriving DecidableEq

/-- The host collaborators of the provider: the configuration, the parser
from `./lib/parse`, the editor's word-range query and the workspace
document loader (whose failure models an I/O rejection). -/
structure Env where
  config : Config
  parseFileContents : List Char → List Char → Node
  getWordRangeAtPosition : TextDocument → Nat × Nat → Option (Nat × Nat)
  openTextDocument : List Char → Except (List Char) TextDocument

/-- The result of `./lib/parse`'s dependency scan: the ordered module
paths (`none` for a non-literal entry) and the factory's formal parameter
names. -/
structure DepsResult where
  modules : List (Option (List Char))
  params : List (List Char)
deriving DecidableEq

/-- The value of an array-literal element in module-path position:
a string literal's value, or nothing for a non-literal entry. -/
def moduleEntry : Node → Option (List Char)
  | .literal v _ => some v
  | _ => none

/-- The names of a factory function's formal parameters. -/
def factoryParams : Node → List (List Char)
  | .functionExpr params _ _ => params.toList.filterMap Node.name
  | _ => []

/-- Classifies the argument list of a `define`/`require` call into the
three recognized shapes: `fn(pathsArray)`, `fn(pathsArray, factory)` and
`fn(name, pathsArray, factory)`. -/
def classifyArgs : List Node → DepsResult
  | [.arrayExpr elems _] => ⟨elems.toList.map moduleEntry, []⟩
  | [.arrayExpr elems _, factory] =>
    ⟨elems.toList.map moduleEntry, factoryParams factory⟩
  | [.literal _ _, .arrayExpr elems _, factory] =>
    ⟨elems.toList.map moduleEntry, factoryParams factory⟩
  | _ => ⟨[], []⟩

/-- Modelled from the spec: `findDependencies` lives in `./lib/parse`,
which is not included under `src/`.  Section 4.2 of the specification:
traverse the tree for the first call whose callee is the identifier
`define` or `require`; recognize the shapes `fn(pathsArray, factory)`,
`fn(name, pathsArray, factory)` (the name is ignored) and `fn(pathsArray)`
with no factory; non-literal array entries produce no binding for their
position; the factory's formal parameters are zipped positionally against
the path list.  The caller indexes the result like an array of module
paths that also carries `params`. -/
def findDependencies (_fileName : List Char) (astRoot : Node) : DepsResult :=
  let found := (traverseNode (σ := Option Node)
    (fun node _ s =>
      match s with
      | some _ => (s, false)
      | none =>
        match node with
        | .call (.ident calleeName _) _ _ =>
          if calleeName = "define".data ∨ calleeName = "require".data then
            (some node, false)
          else (none, true)
        | _ => (none, true))
    none astRoot none).1
  match found with
  | some (.call _ args _) => classifyArgs args.toList
  | _ => ⟨[], []⟩

/-- The `reduce` over `dependencies.params` in `getModuleDependencies`
(src/extension.js lines 592-596): `result[param] = dependencies[index]`. -/
def buildTable (modules : List (Option (List Char))) :
    Nat → List (List Char) → DepTable → DepTable
  | _, [], result => result
  | index, param :: rest, result =>
    buildTable modules (index + 1) rest
      (insertA result param (modules[index]?.join))

/-- `moduleDependencies[imported]`: reads the table with a
possibly-undefined key; a stored `undefined` reads back as absent. -/
def depGet (table : DepTable) : Option (List Char) → Option (List Char)
  | none => none
  | some key => (lookupA table key).join

/-- `getModuleDependencies` (src/extension.js lines 587-601): returns the
name/path table for a document, computing and caching it on a miss. -/
def getModuleDependencies (caches : Caches) (document : TextDocument)
    (astRoot : Node) : DepTable × Caches :=
  let hit := getCachedVersionedObject caches.moduleDependencyCache document
  match hit.1 with
  | some dependencies => (dependencies, { caches with moduleDependencyCache := hit.2 })
  | none =>
    let found := findDependencies document.fileName astRoot
    let dependencies := buildTable found.modules 0 found.params []
    (dependencies,
      { caches with
        moduleDependencyCache := setCachedVersionedObject hit.2 document dependencies })

/-- `getParsedModule` (src/extension.js lines 570-579): returns the
document's syntax tree, parsing and caching it on a miss. -/
def getParsedModule (env : Env) (caches : Caches) (document : TextDocument) :
    Node × Caches :=
  let hit := getCachedVersionedObject caches.parsedModuleCache document
  match hit.1 with
  | some astRoot => (astRoot, { caches with parsedModuleCache := hit.2 })
  | none =>
    let astRoot := env.parseFileContents document.fileName document.text
    (astRoot,
      { caches with
        parsedModuleCache := setCachedVersionedObject hit.2 document astRoot })

/-- `findIdentifier` (src/extension.js lines 346-360): the first
occurrence, in traversal order, of an identifier with the given name; the
captured value is that node's `loc` (which may itself be absent). -/
def findIdentifier (astRoot : Node) (identifier : Option (List Char)) :
    Option Loc :=
  (traverseNode (σ := Option Loc)
    (fun node _ loc =>
      match node with
      | .ident n l => if some n = identifier then (l, false) else (loc, true)
      | _ => (loc, true))
    none astRoot none).1

/-- The nodes found at the caret: the selected identifier and its parent
expression. -/
structure IdentifierNodes where
  currentNode : Node
  parentNode : Option Node
deriving DecidableEq

/-- The JavaScript comparison `loc.line > line` as written in
`findIdentifierWinthinRange`: an esprima location has no `line` property,
so the left operand is `undefined` and the comparison is always false. -/
def jsUndefinedGt (lhs : Option Int) (rhs : Int) : Bool :=
  match lhs with
  | some v => rhs < v
  | none => false

/-- `findIdentifierWinthinRange` (src/extension.js lines 369-403): the
identifier node whose start location matches the (zero-based) caret word
range, together with its parent. -/
def findIdentifierWinthinRange (astRoot : Node) (range : Nat × Nat) :
    Option IdentifierNodes :=
  let line : Int := (range.1 : Int) + 1
  let column : Int := (range.2 : Int)
  let found := (traverseNode (σ := Option (Node × Option Node))
    (fun node parent s =>
      match node.loc with
      | some loc =>
        if node.isIdentifierNode ∧ loc.startLine = line ∧ loc.startColumn = column then
          (some (node, parent), false)
        else if jsUndefinedGt none line then (s, false)
        else (s, true)
      | none => (s, true))
    none astRoot none).1
  match found with
  | some (currentNode, parentNode) => some ⟨currentNode, parentNode⟩
  | none => none

/-- `handleAssignment` inside `getVariableAssignments` (src/extension.js
lines 416-430): records `left = imported;` and `left = new Imported;`. -/
def handleAssignment (assignments : List (List Char × List Char))
    (leftNodeName : List Char) (rightNode : Node) :
    List (List Char × List Char) :=
  match rightNode with
  | .ident rightName _ => insertA assignments leftNodeName rightName
  | .newExpr callee _ _ =>
    match callee with
    | .ident calleeName _ => insertA assignments leftNodeName calleeName
    | _ => assignments
  | _ => assignments

/-- `getVariableAssignments` (src/extension.js lines 413-455): the map of
local variables to their initializing identifiers, collected from the
declarations and assignments that precede `stopNode` in traversal order
(`node === stopNode` stops the walk). -/
def getVariableAssignments (astRoot stopNode : Node) :
    List (List Char × List Char) :=
  (traverseNode (σ := List (List Char × List Char))
    (fun node _ assignments =>
      if node = stopNode then (assignments, false)
      else
        match node with
        | .varDecl id init _ =>
          match id, init with
          | .ident idName _, .some initNode =>
            (handleAssignment assignments idName initNode, true)
          | _, _ => (assignments, true)
        | .assign left right _ =>
          match left with
          | .ident leftName _ => (handleAssignment assignments leftName right, true)
          | _ => (assignments, true)
        | _ => (assignments, true))
    none astRoot []).1

/-- The `for (;;)` reassignment-chain loop of
`findOriginatingModuleDependency` (src/extension.js lines 515-535),
written with explicit fuel: each iteration that continues deletes the key
it just followed (`delete assignments[imported]`), so
`assignments.length + 1` units of fuel always suffice (proved below).
Running out of fuel yields `none`. -/
def dependencyLoop :
    Nat → List (List Char × List Char) → DepTable → Option (List Char) →
    Option (List Char) → Option (List Char) → Bool →
    Option (Option (List Char) × Option (List Char) × Option (List Char))
  | 0, _, _, _, _, _, _ => none
  | fuel + 1, assignments, moduleDependencies, modulePath, imported, selected,
      isMember =>
    let declared := match imported with
      | some key => lookupA assignments key
      | none => none
    match declared with
    | none => some (modulePath, imported, selected)
    | some d =>
      if d.isEmpty then some (modulePath, imported, selected)
      else
        let assignments := match imported with
          | some key => eraseAllA assignments key
          | none => assignments
        let imported := some d
        let modulePath := depGet moduleDependencies imported
        if jsFalsyStr modulePath then
          dependencyLoop fuel assignments moduleDependencies modulePath imported
            selected isMember
        else
          some (modulePath, imported, if isMember then selected else imported)

/-- The result record of `findOriginatingModuleDependency`; the
short-circuit return `{ modulePath, selected }` leaves `imported`
undefined. -/
structure ModuleDependency where
  modulePath : Option (List Char)
  imported : Option (List Char)
  selected : Option (List Char)
deriving DecidableEq

/-- `findOriginatingModuleDependency` (src/extension.js lines 466-543):
maps the selected identifier to the dependency that introduced it —
directly, through a non-computed `object.member` access, through a
`require('module').member` call, or through a chain of local
reassignments. -/
def findOriginatingModuleDependency (astRoot : Node)
    (identifier : IdentifierNodes) (moduleDependencies : DepTable) :
    ModuleDependency :=
  let currentNode := identifier.currentNode
  let selected := currentNode.name
  let memberStep : Except ModuleDependency (Option (List Char) × Bool) :=
    match identifier.parentNode with
    | none => .ok (none, false)
    | some parentNode =>
      match parentNode with
      | .member false object property _ =>
        if property.name = selected then
          match object with
          | .ident objectName _ => .ok (some objectName, true)
          | .call callee parameters _ =>
            match callee with
            | .ident calleeName _ =>
              if (calleeName = "require".data ∨ calleeName = "requirejs".data)
                  ∧ parameters.toList.length = 1 then
                match parameters.toList.head? with
                | some (.literal v _) => .error ⟨some v, none, selected⟩
                | _ => .ok (none, false)
              else .ok (none, false)
            | _ => .ok (none, false)
          | _ => .ok (none, false)
        else .ok (none, false)
      | _ => .ok (none, false)
  match memberStep with
  | .error result => result
  | .ok (imported0, isMember) =>
    let imported := if jsFalsyStr imported0 then selected else imported0
    let modulePath := depGet moduleDependencies imported
    if jsFalsyStr modulePath then
      let assignments := getVariableAssignments astRoot currentNode
      match dependencyLoop (assignments.length + 1) assignments
          moduleDependencies modulePath imported selected isMember with
      | some (mp, imp, sel) => ⟨mp, imp, sel⟩
      | none => ⟨modulePath, imported, selected⟩
    else ⟨modulePath, imported, selected⟩

/-- A `vscode.Location`: a target file with either an identifier range or
a bare position. -/
inductive VsLocation where
  | rangeLoc (uri : List Char) (startLine startColumn endLine endColumn : Int)
  | posLoc (uri : List Char) (line character : Int)
deriving DecidableEq

/-- `searchModule` (src/extension.js lines 610-633): opens the target
module's document and locates the searched identifier in it; outside of a
JavaScript document (or when disabled, or with nothing to search for) it
falls back to the file start.  A failure of `openTextDocument` is the
promise rejection. -/
def searchModule (env : Env) (caches : Caches)
    (currentFilePath modulePath : List Char) (searchFor : Option (List Char)) :
    Except (List Char) (VsLocation × Caches) :=
  let newUri := resolveModulePath env.config modulePath currentFilePath
  match env.openTextDocument newUri with
  | .error e => .error e
  | .ok document =>
    let onlyNavigateToFile := env.config.onlyNavigateToFile
    if onlyNavigateToFile = false ∧ jsFalsyStr searchFor = false
        ∧ document.languageId = "javascript".data then
      let pm := getParsedModule env caches document
      let astRoot := pm.1
      let caches := pm.2
      match findIdentifier astRoot searchFor with
      | some range =>
        .ok (.rangeLoc newUri (range.startLine - 1) range.startColumn
          (range.endLine - 1) range.endColumn, caches)
      | none => .ok (.posLoc newUri 0 0, caches)
    else .ok (.posLoc newUri 0 0, caches)

/-- `provideDefinition` (src/extension.js lines 635-655): the "go to
definition" entry point.  Every early exit resolves with an absent
location; only `searchModule`'s document-open failure surfaces as an
error. -/
def provideDefinition (env : Env) (caches : Caches) (document : TextDocument)
    (position : Nat × Nat) :
    Except (List Char) (Option VsLocation) × Caches :=
  let currentFilePath := document.fileName
  match env.getWordRangeAtPosition document position with
  | none => (.ok none, caches)
  | some range =>
    let pm := getParsedModule env caches document
    let astRoot := pm.1
    let caches := pm.2
    match findIdentifierWinthinRange astRoot range with
    | none => (.ok none, caches)
    | some identifier =>
      let md := getModuleDependencies caches document astRoot
      let moduleDependencies := md.1
      let caches := md.2
      let moduleDependency :=
        findOriginatingModuleDependency astRoot identifier moduleDependencies
      match moduleDependency.modulePath with
      | some modulePath =>
        if modulePath.isEmpty then (.ok none, caches)
        else
          match searchModule env caches currentFilePath modulePath
              moduleDependency.selected with
          | .ok (location, caches) => (.ok (some location), caches)
          | .error e => (.error e, caches)
      | none => (.ok none, caches)

/-! Example inputs used to state and witness the claims. -/

/-- The source shape `fn(['d1', ...], function (p1, ...) {})` for a callee
`fn` (`define` or `require`). -/
def depsCallAst (calleeName : List Char) (ds ps : List (List Char)) : Node :=
  .program (.cons (.exprStmt (.call (.ident calleeName none)
    (.cons (.arrayExpr (NodeList.ofList (ds.map fun d => .literal d none)) none)
      (.cons (.functionExpr (NodeList.ofList (ps.map fun p => .ident p none))
        .nil none) .nil)) none) none) .nil)

/-- The named source shape `define('name', ['d1', ...], function (p1, ...) {})`. -/
def namedDepsCallAst (moduleName : List Char) (ds ps : List (List Char)) : Node :=
  .program (.cons (.exprStmt (.call (.ident "define".data none)
    (.cons (.literal moduleName none)
      (.cons (.arrayExpr (NodeList.ofList (ds.map fun d => .literal d none)) none)
        (.cons (.functionExpr (NodeList.ofList (ps.map fun p => .ident p none))
          .nil none) .nil))) none) none) .nil)

/-- The selected use of `x` on line 2 of the self-rename example. -/
def selfRenameUse : Node := .ident "x".data (some ⟨2, 0, 2, 1⟩)

/-- The source `var x = x; x;`: a self-referential rename followed by a
use of `x`. -/
def selfRenameAst : Node :=
  .program (NodeList.ofList
    [ .varDeclStmt (NodeList.ofList
        [ .varDecl (.ident "x".data (some ⟨1, 4, 1, 5⟩))
            (.some (.ident "x".data (some ⟨1, 8, 1, 9⟩))) (some ⟨1, 4, 1, 9⟩) ])
        (some ⟨1, 0, 1, 10⟩),
      .exprStmt selfRenameUse (some ⟨2, 0, 2, 2⟩) ])

/-- The caret selection of the `x` use in `selfRenameAst`. -/
def selfRenameIdent : IdentifierNodes :=
  ⟨selfRenameUse, some (.exprStmt selfRenameUse (some ⟨2, 0, 2, 2⟩))⟩

/-- A document whose module body is `define(['modA'], function (x) { x; })`,
with locations as esprima would assign them. -/
def exampleAst : Node :=
  .program (NodeList.ofList
    [ .exprStmt (.call (.ident "define".data (some ⟨1, 0, 1, 6⟩))
        (NodeList.ofList
          [ .arrayExpr (NodeList.ofList [.literal "modA".data (some ⟨1, 7, 1, 13⟩)])
              (some ⟨1, 7, 1, 14⟩),
            .functionExpr (NodeList.ofList [.ident "x".data (some ⟨1, 26, 1, 27⟩)])
              (NodeList.ofList
                [.exprStmt (.ident "x".data (some ⟨2, 0, 2, 1⟩)) (some ⟨2, 0, 2, 2⟩)])
              (some ⟨1, 16, 3, 1⟩) ])
        (some ⟨1, 0, 3, 2⟩)) (some ⟨1, 0, 3, 3⟩) ])

/-- The current document of the example queries. -/
def exampleDoc : TextDocument :=
  ⟨"/project/src/main.js".data, 3, "javascript".data, "define-source".data⟩

/-- A host environment for the example queries: the parser always returns
`exampleAst`, the caret word range is at the `x` use (vscode line 1,
character 0) and opening any document fails with `ENOENT`. -/
def exampleEnvOpenFails : Env :=
  ⟨⟨none, "/root".data, false⟩,
    fun _ _ => exampleAst,
    fun _ _ => some (1, 0),
    fun _ => .error "ENOENT".data⟩

/-- A host environment whose word-range query finds no word at the caret. -/
def exampleEnvNoRange : Env :=
  ⟨⟨none, "/root".data, false⟩,
    fun _ _ => exampleAst,
    fun _ _ => none,
    fun _ => .error "ENOENT".data⟩

/-- The non-JavaScript target document of the `searchModule` example. -/
def exampleCssDoc : TextDocument :=
  ⟨"/root/style.css.js".data, 1, "css".data, "body".data⟩

/-- A host environment whose document loader yields the CSS document for
every path. -/
def exampleEnvCss : Env :=
  ⟨⟨none, "/root".data, false⟩,
    fun _ _ => exampleAst,
    fun _ _ => some (1, 0),
    fun _ => .ok exampleCssDoc⟩

/-! Helper lemmas about the association-list and list embeddings. -/

theorem toList_ofList (l : List Node) : (NodeList.ofList l).toList = l := by
  induction l with
  | nil => rfl
  | cons h t ih => simp [NodeList.ofList, NodeList.toList, ih]

theorem lookupA_insertA_self {κ α : Type} [DecidableEq κ]
    (a : List (κ × α)) (k : κ) (v : α) : lookupA (insertA a k v) k = some v := by
  simp [insertA, lookupA]

theorem lookupA_insertA_ne {κ α : Type} [DecidableEq κ]
    (a : List (κ × α)) (k key : κ) (v : α) (h : k ≠ key) :
    lookupA (insertA a k v) key = lookupA a key := by
  simp only [insertA, lookupA, if_neg h]
  induction a with
  | nil => rfl
  | cons e rest ih =>
    obtain ⟨k1, v1⟩ := e
    by_cases h1 : k1 = k
    · subst h1
      simp [eraseAllA, lookupA, ih, h]
    · simp only [eraseAllA, if_neg h1, lookupA]
      by_cases h2 : k1 = key
      · simp [h2]
      · simp [h2, ih]

theorem lookupA_eraseAllA_self {κ α : Type} [DecidableEq κ]
    (a : List (κ × α)) (k : κ) : lookupA (eraseAllA a k) k = none := by
  induction a with
  | nil => rfl
  | cons e rest ih =>
    obtain ⟨k1, v1⟩ := e
    by_cases h1 : k1 = k
    · simp [eraseAllA, h1, ih]
    · simp [eraseAllA, h1, lookupA, ih]

theorem length_eraseAllA_le {κ α : Type} [DecidableEq κ]
    (a : List (κ × α)) (k : κ) : (eraseAllA a k).length ≤ a.length := by
  induction a with
  | nil => simp [eraseAllA]
  | cons e rest ih =>
    obtain ⟨k1, v1⟩ := e
    by_cases h1 : k1 = k
    · simp only [eraseAllA, if_pos h1, List.length_cons]
      omega
    · simp only [eraseAllA, if_neg h1, List.length_cons]
      omega

theorem length_eraseAllA_lt {κ α : Type} [DecidableEq κ]
    (a : List (κ × α)) (k : κ) (v : α) (h : lookupA a k = some v) :
    (eraseAllA a k).length < a.length := by
  induction a with
  | nil => simp [lookupA] at h
  | cons e rest ih =>
    obtain ⟨k1, v1⟩ := e
    by_cases h1 : k1 = k
    · have := length_eraseAllA_le rest k
      simp only [eraseAllA, if_pos h1, List.length_cons]
      omega
    · simp only [lookupA, if_neg h1] at h
      simp only [eraseAllA, if_neg h1, List.length_cons]
      exact Nat.succ_lt_succ (ih h)

theorem buildTable_lookup_of_notMem (modules : List (Option (List Char)))
    (params : List (List Char)) (p : List Char) (hp : p ∉ params) :
    ∀ (index : Nat) (acc : DepTable),
      lookupA (buildTable modules index params acc) p = lookupA acc p := by
  induction params with
  | nil => intro index acc; rfl
  | cons q rest ih =>
    intro index acc
    have hq : q ≠ p := fun h => hp (h ▸ List.mem_cons_self q rest)
    have hrest : p ∉ rest := fun h => hp (List.mem_cons_of_mem q h)
    simp only [buildTable]
    rw [ih hrest, lookupA_insertA_ne _ _ _ _ hq]

theorem buildTable_lookup_nodup (modules : List (Option (List Char)))
    (params : List (List Char)) (hnd : params.Nodup) :
    ∀ (index : Nat) (acc : DepTable) (i : Nat) (h : i < params.length),
      lookupA (buildTable modules index params acc) (params.get ⟨i, h⟩)
        = some (modules[index + i]?.join) := by
  induction params with
  | nil => intro _ _ i h; exact absurd h (Nat.not_lt_zero i)
  | cons q rest ih =>
    intro index acc i h
    rcases List.nodup_cons.mp hnd with ⟨hq, hrest⟩
    match i with
    | 0 =>
      simp only [List.get, buildTable]
      rw [buildTable_lookup_of_notMem modules rest q hq,
        lookupA_insertA_self, Nat.add_zero]
    | j + 1 =>
      simp only [List.get, buildTable]
      have := ih hrest (index + 1) (insertA acc q (modules[index]?.join)) j
        (Nat.lt_of_succ_lt_succ h)
      rw [show index + (j + 1) = index + 1 + j by omega]
      exact this

theorem map_moduleEntry_literals (ds : List (List Char)) :
    (ds.map fun d => Node.literal d none).map moduleEntry = ds.map some := by
  simp [List.map_map, Function.comp, moduleEntry]

theorem filterMap_name_idents (ps : List (List Char)) :
    (ps.map fun p => Node.ident p none).filterMap Node.name = ps := by
  induction ps with
  | nil => rfl
  | cons p rest ih => simp [Node.name, ih]

theorem findDependencies_depsCallAst_define (fname : List Char)
    (ds ps : List (List Char)) :
    findDependencies fname (depsCallAst "define".data ds ps)
      = ⟨ds.map some, ps⟩ := by
  have h : findDependencies fname (depsCallAst "define".data ds ps)
      = ⟨((NodeList.ofList (ds.map fun d => Node.literal d none)).toList.map
            moduleEntry),
          ((NodeList.ofList (ps.map fun p => Node.ident p none)).toList.filterMap
            Node.name)⟩ := rfl
  rw [h, toList_ofList, toList_ofList, map_moduleEntry_literals,
    filterMap_name_idents]

theorem findDependencies_depsCallAst_require (fname : List Char)
    (ds ps : List (List Char)) :
    findDependencies fname (depsCallAst "require".data ds ps)
      = ⟨ds.map some, ps⟩ := by
  have h : findDependencies fname (depsCallAst "require".data ds ps)
      = ⟨((NodeList.ofList (ds.map fun d => Node.literal d none)).toList.map
            moduleEntry),
          ((NodeList.ofList (ps.map fun p => Node.ident p none)).toList.filterMap
            Node.name)⟩ := rfl
  rw [h, toList_ofList, toList_ofList, map_moduleEntry_literals,
    filterMap_name_idents]

theorem findDependencies_namedDepsCallAst (fname moduleName : List Char)
    (ds ps : List (List Char)) :
    findDependencies fname (namedDepsCallAst moduleName ds ps)
      = ⟨ds.map some, ps⟩ := by
  have h : findDependencies fname (namedDepsCallAst moduleName ds ps)
      = ⟨((NodeList.ofList (ds.map fun d => Node.literal d none)).toList.map
            moduleEntry),
          ((NodeList.ofList (ps.map fun p => Node.ident p none)).toList.filterMap
            Node.name)⟩ := rfl
  rw [h, toList_ofList, toList_ofList, map_moduleEntry_literals,
    filterMap_name_idents]

theorem getModuleDependencies_emptyCaches (doc : TextDocument) (ast : Node) :
    (getModuleDependencies ⟨[], []⟩ doc ast).1
      = buildTable (findDependencies doc.fileName ast).modules 0
          (findDependencies doc.fileName ast).params [] := rfl

theorem jsFalsyStr_some_of_ne (s : List Char) (h : s ≠ []) :
    jsFalsyStr (some s) = false := by
  simp [jsFalsyStr, List.isEmpty_iff, h]

theorem dependencyLoop_isSome_of_lt (fuel : Nat) :
    ∀ (assignments : List (List Char × List Char)) (deps : DepTable)
      (modulePath imported selected : Option (List Char)) (isMember : Bool),
      assignments.length < fuel →
      (dependencyLoop fuel assignments deps modulePath imported selected
          isMember).isSome = true := by
  induction fuel with
  | zero => intro a _ _ _ _ _ h; exact absurd h (Nat.not_lt_zero _)
  | succ n ih =>
    intro a deps mp imported selected isMember h
    simp only [dependencyLoop]
    cases imported with
    | none => simp
    | some key =>
      cases hlk : lookupA a key with
      | none => simp [hlk]
      | some d =>
        simp only [hlk]
        by_cases hd : d.isEmpty = true
        · simp [hd]
        · rw [if_neg hd]
          by_cases hfal : jsFalsyStr (depGet deps (some d)) = true
          · rw [if_pos hfal]
            have hlen := length_eraseAllA_lt a key d hlk
            exact ih (eraseAllA a key) deps (depGet deps (some d)) (some d)
              selected isMember (by omega)
          · rw [if_neg hfal]
            simp

/-- C1: for every `define(['a','b'], function (x, y) {})` module body, the
dependency extraction exposed through `getModuleDependencies` maps each
factory formal parameter positionally to the module path at the same
index, the `require([...], function (...) {})` form produces the very
same table, and so does the named form
`define('name', [...], function (...) {})`, whose name argument is
ignored. -/
theorem C1_getModuleDependencies_positional_table
    (ds ps : List (List Char)) (moduleName : List Char) (doc : TextDocument)
    (hnd : ps.Nodup) :
    (getModuleDependencies ⟨[], []⟩ doc (depsCallAst "require".data ds ps)).1
      = (getModuleDependencies ⟨[], []⟩ doc (depsCallAst "define".data ds ps)).1
    ∧ (getModuleDependencies ⟨[], []⟩ doc (namedDepsCallAst moduleName ds ps)).1
      = (getModuleDependencies ⟨[], []⟩ doc (depsCallAst "define".data ds ps)).1
    ∧ ∀ (i : Nat) (hp : i < ps.length) (hd : i < ds.length),
        depGet
          (getModuleDependencies ⟨[], []⟩ doc (depsCallAst "define".data ds ps)).1
          (some (ps.get ⟨i, hp⟩)) = some (ds.get ⟨i, hd⟩) := by
  refine ⟨?_, ?_, ?_⟩
  · rw [getModuleDependencies_emptyCaches, getModuleDependencies_emptyCaches,
      findDependencies_depsCallAst_require, findDependencies_depsCallAst_define]
  · rw [getModuleDependencies_emptyCaches, getModuleDependencies_emptyCaches,
      findDependencies_namedDepsCallAst, findDependencies_depsCallAst_define]
  · intro i hp hd
    rw [getModuleDependencies_emptyCaches, findDependencies_depsCallAst_define]
    simp only [depGet]
    rw [buildTable_lookup_nodup (ds.map some) ps hnd 0 [] i hp]
    simp [List.getElem?_map, List.getElem?_eq_getElem hd]

theorem C1_witness :
    (["x".data, "y".data] : List (List Char)).Nodup
    ∧ depGet (getModuleDependencies ⟨[], []⟩ exampleDoc
          (depsCallAst "define".data ["a".data, "b".data]
            ["x".data, "y".data])).1
        (some "x".data) = some "a".data
    ∧ depGet (getModuleDependencies ⟨[], []⟩ exampleDoc
          (depsCallAst "define".data ["a".data, "b".data]
            ["x".data, "y".data])).1
        (some "y".data) = some "b".data :=
  ⟨by decide,
    (C1_getModuleDependencies_positional_table ["a".data, "b".data]
      ["x".data, "y".data] "name".data exampleDoc (by decide)).2.2 0
      (by decide) (by decide),
    (C1_getModuleDependencies_positional_table ["a".data, "b".data]
      ["x".data, "y".data] "name".data exampleDoc (by decide)).2.2 1
      (by decide) (by decide)⟩

/-- C4: the reassignment-chain loop of identifier resolution terminates on
every input (the fuel `assignments.length + 1` always suffices, because
every continuing iteration deletes the key it followed), and on the
self-referential rename `var x = x;` resolution stops and yields no
binding. -/
theorem C4_reassignment_chain_termination :
    (∀ (assignments : List (List Char × List Char)) (deps : DepTable)
        (modulePath imported selected : Option (List Char)) (isMember : Bool),
      (dependencyLoop (assignments.length + 1) assignments deps modulePath
          imported selected isMember).isSome = true)
    ∧ findOriginatingModuleDependency selfRenameAst selfRenameIdent []
        = ⟨none, some "x".data, some "x".data⟩ := by
  constructor
  · intro a deps mp imported selected isMember
    exact dependencyLoop_isSome_of_lt (a.length + 1) a deps mp imported
      selected isMember (Nat.lt_succ_self _)
  · rfl

/-- C2: selecting the property of a non-computed member expression
`foo.bar`, where `foo` is a plain identifier bound in the dependency
table, resolves with `imported = foo`, `selected = bar` and the module
path stored in the table under `foo`. -/
theorem C2_member_access_resolution (astRoot : Node)
    (objectName propertyName mp : List Char) (lo lp lm : Option Loc)
    (table : DepTable) (hobj : objectName ≠ [])
    (hmp : depGet table (some objectName) = some mp) (hne : mp ≠ []) :
    findOriginatingModuleDependency astRoot
      ⟨.ident propertyName lp,
        some (.member false (.ident objectName lo) (.ident propertyName lp) lm)⟩
      table
      = ⟨some mp, some objectName, some propertyName⟩ := by
  have h1 : jsFalsyStr (some objectName) = false := jsFalsyStr_some_of_ne _ hobj
  have h2 : jsFalsyStr (some mp) = false := jsFalsyStr_some_of_ne _ hne
  simp [findOriginatingModuleDependency, Node.name, h1, hmp, h2]

theorem C2_witness :
    findOriginatingModuleDependency (.program .nil)
      ⟨.ident "bar".data none,
        some (.member false (.ident "foo".data none) (.ident "bar".data none)
          none)⟩
      [("foo".data, some "mod/foo".data)]
      = ⟨some "mod/foo".data, some "foo".data, some "bar".data⟩ :=
  C2_member_access_resolution (.program .nil) "foo".data "bar".data
    "mod/foo".data none none none [("foo".data, some "mod/foo".data)]
    (by decide) (by decide) (by decide)

/-- C3: selecting the property of a member expression whose object is a
call to `require`/`requirejs` with exactly one string-literal argument
short-circuits: the module path is that literal, `selected` is the
property name, and no dependency-table lookup happens (the result is the
same for every table, and `imported` is left undefined). -/
theorem C3_require_literal_short_circuit (astRoot : Node)
    (calleeName litValue propertyName : List Char)
    (lf ll lc lp lm : Option Loc) (table : DepTable)
    (hc : calleeName = "require".data ∨ calleeName = "requirejs".data) :
    findOriginatingModuleDependency astRoot
      ⟨.ident propertyName lp,
        some (.member false
          (.call (.ident calleeName lf) (.cons (.literal litValue ll) .nil) lc)
          (.ident propertyName lp) lm)⟩
      table
      = ⟨some litValue, none, some propertyName⟩ := by
  rcases hc with rfl | rfl <;>
    simp [findOriginatingModuleDependency, Node.name, NodeList.toList]

theorem C3_witness :
    findOriginatingModuleDependency (.program .nil)
      ⟨.ident "bar".data none,
        some (.member false
          (.call (.ident "require".data none)
            (.cons (.literal "m".data none) .nil) none)
          (.ident "bar".data none) none)⟩
      [("bar".data, some "other".data)]
      = ⟨some "m".data, none, some "bar".data⟩ :=
  C3_require_literal_short_circuit (.program .nil) "require".data "m".data
    "bar".data none none none none none [("bar".data, some "other".data)]
    (Or.inl rfl)

theorem indexOfChar_of_not_mem (c : Char) (l : List Char) (h : c ∉ l) :
    indexOfChar c l = -1 := by
  induction l with
  | nil => rfl
  | cons x rest ih =>
    have hx : x ≠ c := fun e => h (e ▸ List.mem_cons_self x rest)
    have hr : c ∉ rest := fun e => h (List.mem_cons_of_mem x e)
    simp [indexOfChar, hx, ih hr]

theorem indexOfChar_append_cons (c : Char) (p t : List Char) (h : c ∉ p) :
    indexOfChar c (p ++ c :: t) = p.length := by
  induction p with
  | nil => simp [indexOfChar]
  | cons x rest ih =>
    have hx : x ≠ c := fun e => h (e ▸ List.mem_cons_self x rest)
    have hr : c ∉ rest := fun e => h (List.mem_cons_of_mem x e)
    have hnn : ¬ ((rest.length : Int) < 0) := by omega
    have hstep : indexOfChar c ((x :: rest) ++ c :: t)
        = (if indexOfChar c (rest ++ c :: t) < 0 then -1
           else indexOfChar c (rest ++ c :: t) + 1) := by
      simp [indexOfChar, hx]
    rw [hstep, ih hr, if_neg hnn, List.length_cons]
    push_cast
    ring

theorem isPrefixOf_dotSlash_append_js (modulePath : List Char)
    (h : List.isPrefixOf ['.', '/'] modulePath = false) :
    List.isPrefixOf ['.', '/'] (modulePath ++ ['.', 'j', 's']) = false := by
  match modulePath with
  | [] => rfl
  | [a] =>
    simp only [List.cons_append, List.nil_append, List.isPrefixOf]
    simp
  | a :: b :: t =>
    simp only [List.isPrefixOf, List.cons_append] at h ⊢
    exact h

/-- C5: a module path without a plugin separator gets the `.js` suffix
appended — a `./`-relative one is then resolved against the directory of
the current file, any other one is handed to the loader with the suffix
alone; in particular `resolveModulePath('./sibling',
'/project/src/main.js')` yields `/project/src/sibling.js`. -/
theorem C5_resolveModulePath_relative :
    (∀ config : Config,
      resolveModulePath config "./sibling".data "/project/src/main.js".data
        = "/project/src/sibling.js".data)
    ∧ (∀ (config : Config) (modulePath currentFilePath : List Char),
        '!' ∉ modulePath →
        List.isPrefixOf ['.', '/'] modulePath = true →
        resolveModulePath config modulePath currentFilePath
          = pathNormalize (toUrl config.baseUrl
              (pathJoin (pathDirname currentFilePath)
                (modulePath ++ ['.', 'j', 's']))))
    ∧ ∀ (config : Config) (modulePath currentFilePath : List Char),
        '!' ∉ modulePath →
        List.isPrefixOf ['.', '/'] modulePath = false →
        resolveModulePath config modulePath currentFilePath
          = pathNormalize (toUrl config.baseUrl
              (modulePath ++ ['.', 'j', 's'])) := by
  refine ⟨?_, ?_, ?_⟩
  · intro config
    rfl
  · intro config modulePath currentFilePath hnb hpre
    have hidx : indexOfChar '!' modulePath = -1 :=
      indexOfChar_of_not_mem _ _ hnb
    have hpre2 : List.isPrefixOf ['.', '/'] (modulePath ++ ['.', 'j', 's'])
        = true := by
      rw [List.isPrefixOf_iff_prefix] at hpre ⊢
      exact hpre.trans (List.prefix_append modulePath _)
    have hneg : ¬ ((0 : Int) < -1) := by omega
    simp only [resolveModulePath, rawFilePath, hidx, if_neg hneg, hpre2,
      if_true, if_pos]
  · intro config modulePath currentFilePath hnb hpre
    have hidx : indexOfChar '!' modulePath = -1 :=
      indexOfChar_of_not_mem _ _ hnb
    have hpre2 : List.isPrefixOf ['.', '/'] (modulePath ++ ['.', 'j', 's'])
        = false := isPrefixOf_dotSlash_append_js modulePath hpre
    have hneg : ¬ ((0 : Int) < -1) := by omega
    simp only [resolveModulePath, rawFilePath, hidx, if_neg hneg, hpre2,
      Bool.false_eq_true, if_false]

theorem C5_witness :
    resolveModulePath ⟨none, "/root".data, false⟩ "./sibling".data
        "/project/src/main.js".data
      = pathNormalize (toUrl "/root".data
          (pathJoin (pathDirname "/project/src/main.js".data)
            ("./sibling".data ++ ['.', 'j', 's'])))
    ∧ resolveModulePath ⟨none, "/root".data, false⟩ "foo/bar".data
        "/project/src/main.js".data
      = pathNormalize (toUrl "/root".data ("foo/bar".data ++ ['.', 'j', 's'])) :=
  ⟨C5_resolveModulePath_relative.2.1 ⟨none, "/root".data, false⟩
      "./sibling".data "/project/src/main.js".data (by decide) (by decide),
    C5_resolveModulePath_relative.2.2 ⟨none, "/root".data, false⟩
      "foo/bar".data "/project/src/main.js".data (by decide) (by decide)⟩

/-- C6: for a plugin-form module path `plugin!target`, the configured
per-plugin extension is appended only when the target does not already
end with it, and with no configured extension the target is kept exactly
as given. -/
theorem C6_plugin_extension_suffix (exts : List (List Char × List Char))
    (pluginName target : List Char) (hne : pluginName ≠ [])
    (hnb : '!' ∉ pluginName) :
    (∀ pluginExtension, lookupA exts pluginName = some pluginExtension →
        pluginExtension ≠ [] →
        List.isSuffixOf pluginExtension target = true →
        rawFilePath (some exts) (pluginName ++ '!' :: target) = target)
    ∧ (∀ pluginExtension, lookupA exts pluginName = some pluginExtension →
        pluginExtension ≠ [] →
        List.isSuffixOf pluginExtension target = false →
        rawFilePath (some exts) (pluginName ++ '!' :: target)
          = target ++ pluginExtension)
    ∧ (lookupA exts pluginName = none →
        rawFilePath (some exts) (pluginName ++ '!' :: target) = target)
    ∧ rawFilePath none (pluginName ++ '!' :: target) = target := by
  have hidx : indexOfChar '!' (pluginName ++ '!' :: target)
      = pluginName.length := indexOfChar_append_cons _ _ _ hnb
  have hpos : (0 : Int) < (pluginName.length : Int) := by
    have := List.length_pos.mpr hne
    omega
  have htn : ((pluginName.length : Int)).toNat = pluginName.length :=
    Int.toNat_natCast _
  have htake : (pluginName ++ '!' :: target).take pluginName.length
      = pluginName := List.take_left pluginName _
  have hdrop : (pluginName ++ '!' :: target).drop (pluginName.length + 1)
      = target := by
    have hs : pluginName ++ '!' :: target = (pluginName ++ ['!']) ++ target := by
      simp
    have hl : (pluginName ++ ['!']).length = pluginName.length + 1 := by
      simp
    rw [hs, ← hl, List.drop_left]
  refine ⟨?_, ?_, ?_, ?_⟩
  · intro pluginExtension hlook hpe hsuf
    simp only [rawFilePath, hidx, if_pos hpos, htn, htake, hdrop, hlook, hsuf]
    simp
  · intro pluginExtension hlook hpe hsuf
    simp only [rawFilePath, hidx, if_pos hpos, htn, htake, hdrop, hlook, hsuf]
    simp [hpe]
  · intro hlook
    simp only [rawFilePath, hidx, if_pos hpos, htn, htake, hdrop, hlook]
  · simp only [rawFilePath, hidx, if_pos hpos, htn, htake, hdrop]

theorem C6_witness :
    rawFilePath (some [("text".data, ".html".data)])
        ("text".data ++ '!' :: "./template.html".data)
      = "./template.html".data :=
  (C6_plugin_extension_suffix [("text".data, ".html".data)] "text".data
    "./template.html".data (by decide) (by decide)).1 ".html".data rfl
    (by decide) (by decide)

/-- C10: a module path whose first character is `!` is not treated as a
plugin form (the separator counts only at a positive index): the whole
string, including the leading `!`, gets the `.js` suffix appended exactly
like a plain module path, for every configuration. -/
theorem C10_leading_bang_not_plugin (config : Config)
    (rest currentFilePath : List Char) :
    rawFilePath config.pluginExtensions ('!' :: rest)
      = ('!' :: rest) ++ ['.', 'j', 's']
    ∧ resolveModulePath config ('!' :: rest) currentFilePath
      = pathNormalize (toUrl config.baseUrl (('!' :: rest) ++ ['.', 'j', 's'])) :=
  ⟨rfl, rfl⟩

/-- C7: a cached tree or table is returned only when its stored revision
equals the current document revision; a revision mismatch evicts the
stale entry; and a second query for the same unchanged document reuses
the cached value — independently of the parser environment (no re-parse)
and of the tree argument (no re-extraction) — leaving the caches
untouched. -/
theorem C7_versioned_cache_invariants :
    (∀ (α : Type) (cache : Cache α) (document : TextDocument) (o : α)
        (c : Cache α),
      getCachedVersionedObject cache document = (some o, c) →
      lookupA cache document.fileName = some (o, document.version) ∧ c = cache)
    ∧ (∀ (α : Type) (cache : Cache α) (document : TextDocument)
        (entry : α × Nat),
      lookupA cache document.fileName = some entry →
      entry.2 ≠ document.version →
      getCachedVersionedObject cache document
        = (none, eraseAllA cache document.fileName)
      ∧ lookupA (eraseAllA cache document.fileName) document.fileName = none)
    ∧ (∀ (env envB : Env) (caches : Caches) (document : TextDocument),
      getParsedModule envB (getParsedModule env caches document).2 document
        = getParsedModule env caches document)
    ∧ ∀ (caches : Caches) (document : TextDocument) (astRoot astRootB : Node),
      getModuleDependencies (getModuleDependencies caches document astRoot).2
          document astRootB
        = getModuleDependencies caches document astRoot := by
  refine ⟨?_, ?_, ?_, ?_⟩
  · intro α cache document o c h
    simp only [getCachedVersionedObject] at h
    cases hlk : lookupA cache document.fileName with
    | none => simp [hlk] at h
    | some entry =>
      simp only [hlk] at h
      by_cases hv : entry.2 ≠ document.version
      · rw [if_pos hv] at h
        simp at h
      · rw [if_neg hv] at h
        push_neg at hv
        have h1 : some entry.1 = some o := congrArg Prod.fst h
        have h2 : cache = c := congrArg Prod.snd h
        refine ⟨?_, h2.symm⟩
        obtain ⟨e1, e2⟩ := entry
        simp only [Option.some.injEq] at h1
        simp only at hv
        rw [h1, hv]
  · intro α cache document entry hlk hv
    refine ⟨?_, lookupA_eraseAllA_self _ _⟩
    simp [getCachedVersionedObject, hlk, hv]
  · intro env envB caches document
    cases hlk : lookupA caches.parsedModuleCache document.fileName with
    | none =>
      simp [getParsedModule, getCachedVersionedObject,
        setCachedVersionedObject, hlk, lookupA_insertA_self]
    | some entry =>
      by_cases hv : entry.2 = document.version
      · simp [getParsedModule, getCachedVersionedObject,
          setCachedVersionedObject, hlk, hv]
      · simp [getParsedModule, getCachedVersionedObject,
          setCachedVersionedObject, hlk, hv, lookupA_insertA_self]
  · intro caches document astRoot astRootB
    cases hlk : lookupA caches.moduleDependencyCache document.fileName with
    | none =>
      simp [getModuleDependencies, getCachedVersionedObject,
        setCachedVersionedObject, hlk, lookupA_insertA_self]
    | some entry =>
      by_cases hv : entry.2 = document.version
      · simp [getModuleDependencies, getCachedVersionedObject,
          setCachedVersionedObject, hlk, hv]
      · simp [getModuleDependencies, getCachedVersionedObject,
          setCachedVersionedObject, hlk, hv, lookupA_insertA_self]

theorem C7_witness :
    getCachedVersionedObject [("f".data, (5, 1))]
        (⟨"f".data, 2, "javascript".data, "x".data⟩ : TextDocument)
      = (none, eraseAllA [("f".data, (5, 1))] "f".data)
    ∧ lookupA (eraseAllA [("f".data, (5, 1))] "f".data) "f".data
      = (none : Option (Nat × Nat)) :=
  C7_versioned_cache_invariants.2.1 Nat [("f".data, (5, 1))]
    ⟨"f".data, 2, "javascript".data, "x".data⟩ (5, 1) rfl (by decide)

/-- C8: in `provideDefinition`, every early-exit condition — no word
range at the caret, no identifier node at the range, no module-path
binding for the identifier — resolves to an absent result instead of
throwing, while an I/O failure opening the target document is the one
case that propagates to the caller as a rejection. -/
theorem C8_error_propagation_policy (env : Env) (caches : Caches)
    (document : TextDocument) (position : Nat × Nat) :
    (env.getWordRangeAtPosition document position = none →
      provideDefinition env caches document position = (.ok none, caches))
    ∧ (∀ range, env.getWordRangeAtPosition document position = some range →
        findIdentifierWinthinRange (getParsedModule env caches document).1 range
          = none →
        provideDefinition env caches document position
          = (.ok none, (getParsedModule env caches document).2))
    ∧ (∀ range identifier,
        env.getWordRangeAtPosition document position = some range →
        findIdentifierWinthinRange (getParsedModule env caches document).1 range
          = some identifier →
        jsFalsyStr (findOriginatingModuleDependency
            (getParsedModule env caches document).1 identifier
            (getModuleDependencies (getParsedModule env caches document).2
              document (getParsedModule env caches document).1).1).modulePath
          = true →
        provideDefinition env caches document position
          = (.ok none,
              (getModuleDependencies (getParsedModule env caches document).2
                document (getParsedModule env caches document).1).2))
    ∧ ∀ range identifier modulePath e,
        env.getWordRangeAtPosition document position = some range →
        findIdentifierWinthinRange (getParsedModule env caches document).1 range
          = some identifier →
        (findOriginatingModuleDependency (getParsedModule env caches document).1
            identifier
            (getModuleDependencies (getParsedModule env caches document).2
              document (getParsedModule env caches document).1).1).modulePath
          = some modulePath →
        modulePath ≠ [] →
        env.openTextDocument
            (resolveModulePath env.config modulePath document.fileName)
          = .error e →
        provideDefinition env caches document position
          = (.error e,
              (getModuleDependencies (getParsedModule env caches document).2
                document (getParsedModule env caches document).1).2) := by
  refine ⟨?_, ?_, ?_, ?_⟩
  · intro h
    simp [provideDefinition, h]
  · intro range h1 h2
    simp [provideDefinition, h1, h2]
  · intro range identifier h1 h2 h3
    simp only [provideDefinition, h1, h2]
    cases hmp : (findOriginatingModuleDependency
        (getParsedModule env caches document).1 identifier
        (getModuleDependencies (getParsedModule env caches document).2 document
          (getParsedModule env caches document).1).1).modulePath with
    | none => simp [hmp]
    | some l =>
      rw [hmp] at h3
      simp only [jsFalsyStr] at h3
      simp [hmp, h3]
  · intro range identifier modulePath e h1 h2 h3 h4 h5
    have hne : modulePath.isEmpty = false := by
      simp [List.isEmpty_iff, h4]
    simp [provideDefinition, searchModule, h1, h2, h3, hne, h5]

theorem C8_witness :
    provideDefinition exampleEnvOpenFails ⟨[], []⟩ exampleDoc (5, 5)
      = (.error "ENOENT".data,
          (getModuleDependencies
            (getParsedModule exampleEnvOpenFails ⟨[], []⟩ exampleDoc).2
            exampleDoc
            (getParsedModule exampleEnvOpenFails ⟨[], []⟩ exampleDoc).1).2) :=
  (C8_error_propagation_policy exampleEnvOpenFails ⟨[], []⟩ exampleDoc
      (5, 5)).2.2.2 (1, 0)
    ⟨.ident "x".data (some ⟨2, 0, 2, 1⟩),
      some (.exprStmt (.ident "x".data (some ⟨2, 0, 2, 1⟩)) (some ⟨2, 0, 2, 2⟩))⟩
    "modA".data "ENOENT".data rfl (by decide) (by decide) (by decide) rfl

/-- C9: when the opened target document's language identifier is not
`javascript`, `searchModule` skips the identifier search entirely and
resolves to the target file at line 0, column 0, even though a non-empty
search name is supplied and navigate-to-file-only is disabled. -/
theorem C9_non_javascript_file_start (env : Env) (caches : Caches)
    (currentFilePath modulePath searchFor : List Char)
    (document : TextDocument)
    (hopen : env.openTextDocument
        (resolveModulePath env.config modulePath currentFilePath)
      = .ok document)
    (hlang : document.languageId ≠ "javascript".data)
    (hsf : searchFor ≠ [])
    (hnav : env.config.onlyNavigateToFile = false) :
    searchModule env caches currentFilePath modulePath (some searchFor)
      = .ok (.posLoc (resolveModulePath env.config modulePath currentFilePath)
          0 0, caches) := by
  simp only [searchModule, hopen]
  rw [if_neg]
  intro h
  exact hlang h.2.2

theorem C9_witness :
    searchModule exampleEnvCss ⟨[], []⟩ "/cur.js".data "mod".data
        (some "x".data)
      = .ok (.posLoc
          (resolveModulePath exampleEnvCss.config "mod".data "/cur.js".data)
          0 0, ⟨[], []⟩) :=
  C9_non_javascript_file_start exampleEnvCss ⟨[], []⟩ "/cur.js".data
    "mod".data "x".data exampleCssDoc rfl (by decide) (by decide) rfl

end Requirejs
